import Mathlib

/-!
# networks-project: relay server and Diffie-Hellman client

A shallow embedding of `server.c` (client registry, broadcast, connection
handler, accept loop) and of the key-agreement arithmetic of `client.c`,
followed by the properties proved about them.

Conventions of the embedding.

* `clients[MAX_CLIENTS]` is the list of its slots, slot 0 first; a `NULL`
  slot is `none`. The `for (i = 0; i < MAX_CLIENTS; ++i)` loops are
  recursions over that list, and a `break` ends the recursion.
* A `char[32]` field is the list of its bytes. The C string held in a
  buffer is the run of bytes before the first NUL (`cstr`). `strcmp` walks
  the memory that follows its two pointers: for a session record that is
  the alias field, then the key field, then the bytes of `public_key`
  (`alias_memory`); a read past the end of that memory has no defined
  result and gives `none`.
* `int` values are integers. An `int` operation whose mathematical result
  leaves `[INT_MIN, INT_MAX]`, and a remainder by zero, have no defined
  result in C: the embedding returns `none` there. The `unsigned int`
  counter `cli_count` is a natural number reduced modulo `2^32`.
* `write` and `recv` are the environment: the value returned by the k-th
  `write` of a broadcast is `w k`, and a `recv` is given by its return
  value and the contents of the buffer after the call.
-/

namespace NetworksProject

/-! ## Constants and machine integers -/

/-- The `MAX_CLIENTS` constant of server.c:14. -/
def MAX_CLIENTS : Nat := 128

/-- The `BUFFER_SZ` constant of server.c:15. -/
def BUFFER_SZ : Nat := 2048

/-- Largest value of a 32-bit `int`. -/
def INT_MAX : Int := 2147483647

/-- Smallest value of a 32-bit `int`. -/
def INT_MIN : Int := -2147483648

/-- Modulus of `unsigned int` arithmetic. -/
def UINT_MOD : Nat := 4294967296

/-- Signed `int` product `x * y`: defined only when it is representable. -/
def int_mul (x y : Int) : Option Int :=
  if INT_MIN ≤ x * y ∧ x * y ≤ INT_MAX then some (x * y) else none

/-- Signed `int` remainder `x % m` of C: truncating, with the sign of `x`;
undefined for `m = 0` and for `INT_MIN % -1`. -/
def int_rem (x m : Int) : Option Int :=
  if m = 0 ∨ (x = INT_MIN ∧ m = -1) then none else some (Int.tmod x m)

/-- The four bytes of an `int` in memory: two's complement, least significant
byte first. -/
def int_bytes (x : Int) : List Nat :=
  [(x % 4294967296 % 256).toNat, (x % 4294967296 / 256 % 256).toNat,
   (x % 4294967296 / 65536 % 256).toNat, (x % 4294967296 / 16777216 % 256).toNat]

/-! ## C strings -/

/-- The C string stored in a buffer: the bytes before the first NUL. -/
def cstr (buf : List Nat) : List Nat :=
  buf.takeWhile (fun b => b ≠ 0)

/-- The `strlen` of C on a buffer. On a buffer with no NUL the C function
reads on and returns at least the length of the buffer; the embedding
returns that length, and the one test made on it (a name of length 31 or more
is refused) comes out the same for a 32-byte buffer. -/
def strlen (buf : List Nat) : Nat :=
  (cstr buf).length

/-- The `strcmp` of C on the memory readable from its two pointers: the
difference of the first differing bytes, zero when both strings end at the
same place with equal bytes, and no defined result when the memory of either
argument ends before the comparison is decided. -/
def strcmp : List Nat → List Nat → Option Int
  | a :: as, b :: bs =>
    if a ≠ b then some ((a : Int) - (b : Int))
    else if a = 0 then some 0
    else strcmp as bs
  | _, _ => none

/-- The `strcpy(dst, src)` of C: the string of `src` and its terminator
overwrite the first bytes of `dst`; the rest of `dst` keeps its contents. A
source buffer with no NUL makes the C function read and write past both
arrays; the embedding then copies the bytes of the buffer and a terminator. -/
def strcpy (dst src : List Nat) : List Nat :=
  cstr src ++ [0] ++ dst.drop ((cstr src).length + 1)

/-- Whitespace as skipped by `atoi`. -/
def isspace (b : Nat) : Bool :=
  b = 32 ∨ (9 ≤ b ∧ b ≤ 13)

/-- Decimal digits read by `atoi`, accumulated onto `acc`. -/
def atoi_digits (acc : Int) : List Nat → Int
  | [] => acc
  | b :: rest =>
    if 48 ≤ b ∧ b ≤ 57 then atoi_digits (acc * 10 + ((b : Int) - 48)) rest else acc

/-- The `atoi` of C: leading whitespace, an optional sign, decimal digits. A
value outside `int` is undefined in C; the embedding keeps the mathematical
value, which the server only prints and stores. -/
def atoi (buf : List Nat) : Int :=
  match buf.dropWhile isspace with
  | 45 :: rest => -(atoi_digits 0 rest)
  | 43 :: rest => atoi_digits 0 rest
  | rest => atoi_digits 0 rest

/-! ## The client registry (server.c:17-117) -/

/-- The `client_t` record of server.c:21-30. `address` stands for the
`struct sockaddr_in`, which the server only prints. -/
structure client_t where
  address : Nat
  sockfd : Int
  uid : Int
  name : List Nat
  calias : List Nat
  public_key_str : List Nat
  public_key : Int
deriving DecidableEq, Repr

/-- The memory readable from the pointer `cl->calias`: the alias field and
what follows it in the record, the key field and the `int public_key`
(server.c:27-29). -/
def alias_memory (cl : client_t) : List Nat :=
  cl.calias ++ cl.public_key_str ++ int_bytes cl.public_key

/-- The `clients` array of server.c:33, one entry per slot. -/
abbrev Registry := List (Option client_t)

/-- The `queue_add` of server.c:78-92: the first `NULL` slot receives `cl`
and the loop stops; the function is `void`, so the caller gets `()` and the
new array. -/
def queue_add (cl : client_t) : Registry → Unit × Registry
  | [] => ((), [])
  | none :: rest => ((), some cl :: rest)
  | some c :: rest => ((), some c :: (queue_add cl rest).2)

/-- The `queue_remove` of server.c:100-117: the first occupied slot whose
`uid` matches is set to `NULL` and the loop stops. -/
def queue_remove (uid : Int) : Registry → Registry
  | [] => []
  | none :: rest => none :: queue_remove uid rest
  | some c :: rest =>
    if c.uid = uid then none :: rest else some c :: queue_remove uid rest

/-! ## Broadcast (server.c:129-169) -/

/-- What a `write` call sends: bytes of a `char` buffer or `int` elements. -/
inductive WBuf where
  | bytes (b : List Nat)
  | ints (v : List Int)
deriving DecidableEq, Repr

/-- One `write(fd, buf, n)` call together with the value it returned. -/
structure WriteCall where
  fd : Int
  buf : WBuf
  ret : Int
deriving DecidableEq, Repr

/-- The loop of `broadcast_msg` from some slot on, `k` being the number of
`write` calls made so far. `calias_from` is the memory readable from that
pointer. For an occupied slot with another uid, `strcmp` compares the string
at the slot's alias with it; a matching slot is sent the 32 bytes at
`public_key_from`, then the `BUFFER_SZ` ints at `msg`; a `write` that returns
a negative value is followed by `break`. -/
def broadcast_loop (w : Nat → Int) (msg : List Int) (uid_from : Int)
    (calias_from public_key_from : List Nat) : Registry → Nat → Option (List WriteCall)
  | [], _ => some []
  | none :: rest, k => broadcast_loop w msg uid_from calias_from public_key_from rest k
  | some c :: rest, k =>
    if c.uid ≠ uid_from then
      match strcmp (alias_memory c) calias_from with
      | none => none
      | some r =>
        if r = 0 then
          if w k < 0 then
            some [⟨c.sockfd, WBuf.bytes (public_key_from.take 32), w k⟩]
          else if w (k + 1) < 0 then
            some [⟨c.sockfd, WBuf.bytes (public_key_from.take 32), w k⟩,
                  ⟨c.sockfd, WBuf.ints (msg.take BUFFER_SZ), w (k + 1)⟩]
          else
            (broadcast_loop w msg uid_from calias_from public_key_from rest (k + 2)).map
              (fun t =>
                ⟨c.sockfd, WBuf.bytes (public_key_from.take 32), w k⟩ ::
                ⟨c.sockfd, WBuf.ints (msg.take BUFFER_SZ), w (k + 1)⟩ :: t)
        else broadcast_loop w msg uid_from calias_from public_key_from rest k
    else broadcast_loop w msg uid_from calias_from public_key_from rest k

/-- The `broadcast_msg` of server.c:129-169, as the list of the `write`
calls it makes, in order; `none` when a `strcmp` it makes has no defined
result. -/
def broadcast_msg (w : Nat → Int) (clients : Registry) (msg : List Int) (uid_from : Int)
    (calias_from public_key_from : List Nat) : Option (List WriteCall) :=
  broadcast_loop w msg uid_from calias_from public_key_from clients 0

/-! ## Connection handler (server.c:181-272) -/

/-- One `recv` call as its caller sees it: the value returned and the
contents of the receive buffer after the call. -/
structure Recv (α : Type) where
  rc : Int
  buf : List α
deriving DecidableEq, Repr

/-- The registration handshake of `handle_client` (server.c:193-218) on the
record `*cli`: the new record and `leave_flag`. The three reads are the name,
the alias and the public-key string; the value returned by the third
`recv` is not looked at by the code. -/
def handshake (cli : client_t) (rn ra rp : Recv Nat) : client_t × Bool :=
  if rn.rc ≤ 0 ∨ strlen rn.buf < 2 ∨ strlen rn.buf ≥ 32 - 1 then
    (cli, true)
  else
    let cli1 := { cli with name := strcpy cli.name rn.buf }
    if ra.rc > 0 then
      ({ cli1 with
          calias := strcpy cli1.calias ra.buf
          public_key := atoi rp.buf
          public_key_str := strcpy cli1.public_key_str rp.buf }, false)
    else
      (cli1, true)

/-- One call `broadcast_msg(msg, uid_from, calias_from, public_key_from)`
made by a handler; `calias_from` is the memory readable from `cli->calias`. -/
structure BroadcastCall where
  msg : List Int
  uid_from : Int
  calias_from : List Nat
  public_key_from : List Nat
deriving DecidableEq, Repr

/-- The relay loop of `handle_client` (server.c:222-262) over the `recv`
results that arrive: the broadcasts requested, and whether the loop was
left. With `leave_flag` set the loop is left at once; `rc > 0` relays the
buffer; any other `rc` sets `leave_flag` (both remaining branches do). When
the results run out the handler is still blocked in `recv`. -/
def relay_loop (cli : client_t) : Bool → List (Recv Int) → List BroadcastCall × Bool
  | true, _ => ([], true)
  | false, [] => ([], false)
  | false, r :: rest =>
    if r.rc > 0 then
      (⟨r.buf, cli.uid, alias_memory cli, cli.public_key_str⟩ ::
        (relay_loop cli false rest).1,
       (relay_loop cli false rest).2)
    else relay_loop cli true rest

/-- Global state of the server: the `clients` array, `cli_count` and the
`uid` counter (server.c:17-18, 33). -/
structure Server where
  clients : Registry
  cli_count : Nat
  uid : Int
deriving DecidableEq, Repr

/-- State at start-up: every slot `NULL`, `cli_count = 0`, `uid = 10`. -/
def server_init : Server :=
  ⟨List.replicate MAX_CLIENTS none, 0, 10⟩

/-- A write through the pointer `cli`: the registry slot holding this session
(found by its uid) shows the new contents of the record. -/
def store_client (cli : client_t) : Registry → Registry
  | [] => []
  | none :: rest => none :: store_client cli rest
  | some c :: rest =>
    (if c.uid = cli.uid then some cli else some c) :: store_client cli rest

/-- The teardown of `handle_client` (server.c:264-269): `queue_remove` of the
session's uid, then `cli_count--` on the unsigned counter. -/
def teardown (s : Server) (cli : client_t) : Server :=
  { s with
    clients := queue_remove cli.uid s.clients
    cli_count := (s.cli_count + (UINT_MOD - 1)) % UINT_MOD }

/-- An uninterrupted run of one handler thread. -/
structure HandlerRun where
  registering : Server
  leave_flag : Bool
  calls : List BroadcastCall
  final : Option Server
deriving DecidableEq, Repr

/-- The `handle_client` of server.c:181-272 run without interference from
other threads: `cli_count++`, the handshake, the relay loop and the teardown.
`registering` is the state when the handshake is over, `final` the state
after the teardown (`none` while the handler is still blocked in `recv`). -/
def handle_client (s : Server) (cli : client_t) (rn ra rp : Recv Nat)
    (msgs : List (Recv Int)) : HandlerRun :=
  let s1 : Server := { s with cli_count := (s.cli_count + 1) % UINT_MOD }
  let hs := handshake cli rn ra rp
  let s2 : Server := { s1 with clients := store_client hs.1 s1.clients }
  let lp := relay_loop hs.1 hs.2 msgs
  ⟨s2, hs.2, lp.1, if lp.2 then some (teardown s2 hs.1) else none⟩

/-! ## Accept loop (server.c:315-341) -/

/-- What one iteration of the accept loop does with the connection. -/
inductive Outcome where
  | rejected (connfd : Int)
  | spawned (cli : client_t)
deriving DecidableEq, Repr

/-- One iteration of the accept loop of `main` (server.c:315-341) for the
accepted descriptor `connfd`. `fresh` is the content of the memory returned
by `malloc`. The capacity test compares `cli_count + 1` (unsigned) with
`MAX_CLIENTS`; otherwise the record gets the address, the descriptor and
`uid++`, is handed to `queue_add`, and a handler thread is created. `uid++`
at `INT_MAX` has no defined result. -/
def main_iteration (s : Server) (connfd : Int) (cli_addr : Nat) (fresh : client_t) :
    Option (Server × Outcome) :=
  if (s.cli_count + 1) % UINT_MOD = MAX_CLIENTS then
    some (s, Outcome.rejected connfd)
  else if s.uid + 1 ≤ INT_MAX then
    let cli : client_t := { fresh with address := cli_addr, sockfd := connfd, uid := s.uid }
    some ({ s with clients := (queue_add cli s.clients).2, uid := s.uid + 1 },
          Outcome.spawned cli)
  else none

/-- The uids of the sessions held in the registry, in slot order. -/
def uids (r : Registry) : List Int :=
  r.filterMap (fun o => o.map client_t.uid)

/-- One atomic step of the server on its shared state: an iteration of the
accept loop, a handler's `cli_count++`, a handler's write to its own record
during the handshake (the uid in `cli` is the one assigned at accept), or a
handler's teardown. -/
inductive Step : Server → Server → Prop where
  | accept (s : Server) (connfd : Int) (cli_addr : Nat) (fresh : client_t)
      (s' : Server) (o : Outcome) :
      main_iteration s connfd cli_addr fresh = some (s', o) → Step s s'
  | enter (s : Server) :
      Step s { s with cli_count := (s.cli_count + 1) % UINT_MOD }
  | store (s : Server) (cli : client_t) :
      Step s { s with clients := store_client cli s.clients }
  | leave (s : Server) (cli : client_t) : Step s (teardown s cli)

/-- States the server can be in: the start-up state and what steps lead to. -/
inductive Reachable : Server → Prop where
  | init : Reachable server_init
  | step (s s' : Server) : Reachable s → Step s s' → Reachable s'

/-- Any number of steps of the server, taken by any of its threads. -/
inductive Steps : Server → Server → Prop where
  | refl (s : Server) : Steps s s
  | tail (s t t' : Server) : Steps s t → Step t t' → Steps s t'

/-- Any number of steps of the server none of which is the teardown of the
session with uid `u`: what the accept loop and all handlers may do while that
session's own handler has not reached its teardown. -/
inductive StepsBefore (u : Int) : Server → Server → Prop where
  | refl (s : Server) : StepsBefore u s s
  | accept (s t t' : Server) (connfd : Int) (cli_addr : Nat) (fresh : client_t) (o : Outcome) :
      StepsBefore u s t → main_iteration t connfd cli_addr fresh = some (t', o) →
      StepsBefore u s t'
  | enter (s t : Server) :
      StepsBefore u s t →
      StepsBefore u s { t with cli_count := (t.cli_count + 1) % UINT_MOD }
  | store (s t : Server) (cli : client_t) :
      StepsBefore u s t → StepsBefore u s { t with clients := store_client cli t.clients }
  | leave (s t : Server) (cli : client_t) :
      StepsBefore u s t → cli.uid ≠ u → StepsBefore u s (teardown t cli)

/-! ## Key agreement (client.c:64-100) -/

/-- The `bpow` of client.c:73-88 in `int` arithmetic: `b / 2` and `b % 2`
truncate, `c * c % m` and `c * c * a % m` are evaluated left to right. -/
def bpow (a b m : Int) : Option Int :=
  if b = 0 then some 1
  else
    match bpow a (Int.tdiv b 2) m with
    | none => none
    | some c =>
      if Int.tmod b 2 = 0 then
        (int_mul c c).bind (fun cc => int_rem cc m)
      else
        (int_mul c c).bind (fun cc => (int_mul cc a).bind (fun cca => int_rem cca m))
termination_by b.natAbs
decreasing_by
  rename_i hb
  have h1 : (Int.tdiv b 2).natAbs = b.natAbs / 2 := by
    rw [Int.natAbs_tdiv]; rfl
  have h2 : 0 < b.natAbs := Int.natAbs_pos.mpr hb
  omega

/-- The `compute_key` of client.c:97-100. -/
def compute_key (g a p : Int) : Option Int :=
  bpow g a p

/-- The public generator `G` of client.c:17. -/
def G : Int := 5

/-- The public modulus `P` of client.c:18. -/
def P : Int := 23

/-! ## Message codec (client.c:141-158) -/

/-- The loop of `encrypt_msg` over the next `n` positions:
`pass_enc[i] = (int) (message[i]) * secret_key`. A read past the end of
`message` has no defined result. -/
def encrypt_loop (secret_key : Int) : Nat → List Int → Option (List Int)
  | 0, _ => some []
  | _ + 1, [] => none
  | n + 1, ch :: rest =>
    (int_mul ch secret_key).bind
      (fun e => (encrypt_loop secret_key n rest).map (fun es => e :: es))

/-- The `encrypt_msg` of client.c:150-158: the array `pass_enc` it returns.
A `char` of `message` is given by its value `(int) (message[i])`; the loop
body runs for `0 ≤ i < message_len`. -/
def encrypt_msg (message : List Int) (message_len : Int) (secret_key : Int) :
    Option (List Int) :=
  encrypt_loop secret_key message_len.toNat message

/-! ## Sample sessions for the scenario theorems -/

/-- A string as a NUL-padded 32-byte field. -/
def field32 (s : List Nat) : List Nat :=
  s ++ List.replicate (32 - s.length) 0

/-- The alias "room1" as a 32-byte field. -/
def room1 : List Nat := field32 [114, 111, 111, 109, 49]

/-- The alias "room2" as a 32-byte field. -/
def room2 : List Nat := field32 [114, 111, 111, 109, 50]

/-- Session "alice" in "room1": descriptor 4, uid 10, public key "8". -/
def alice : client_t :=
  ⟨0, 4, 10, field32 [97, 108, 105, 99, 101], room1, field32 [56], 8⟩

/-- Session "bob" in "room1": descriptor 5, uid 11, public key "19". -/
def bob : client_t :=
  ⟨0, 5, 11, field32 [98, 111, 98], room1, field32 [49, 57], 19⟩

/-- Session "carol" in "room1": descriptor 6, uid 12, public key "2". -/
def carol : client_t :=
  ⟨0, 6, 12, field32 [99, 97, 114, 111, 108], room1, field32 [50], 2⟩

/-- Session "dave" in "room2": descriptor 7, uid 13, public key "10". -/
def dave : client_t :=
  ⟨0, 7, 13, field32 [100, 97, 118, 101], room2, field32 [49, 48], 10⟩

/-- A `clients` array holding the given sessions in its first slots. -/
def registry_of (l : List client_t) : Registry :=
  l.map some ++ List.replicate (MAX_CLIENTS - l.length) none

/-- The payload buffer `[72, 101, 0, ...]` of `BUFFER_SZ` ints. -/
def payload_he : List Int :=
  [72, 101] ++ List.replicate (BUFFER_SZ - 2) 0

/-- Session number `i` of a full house: descriptor `4 + i`, uid `10 + i`,
in "room1". -/
def numbered_client (i : Nat) : client_t :=
  ⟨0, 4 + Int.ofNat i, 10 + Int.ofNat i, field32 [117, 115, 101, 114], room1, field32 [56], 8⟩

/-- A `clients` array with every slot occupied, slot `i` by session `i`. -/
def full_registry : Registry :=
  (List.range MAX_CLIENTS).map (fun i => some (numbered_client i))

/-- Memory as `malloc` may return it: a record of zero bytes. -/
def blank : client_t :=
  ⟨0, 0, 0, field32 [], field32 [], field32 [], 0⟩

/-- Memory as `malloc` may also return it: the bytes of a freed session
record "zoe" of "room1". -/
def stale : client_t :=
  ⟨7, 9, 3, field32 [122, 111, 101], room1, field32 [53], 5⟩

/-- The record of a connection accepted on descriptor 5 with uid 11 into the
memory `stale`, before its handler has read anything. -/
def half_open : client_t :=
  { stale with address := 0, sockfd := 5, uid := 11 }

/-- An alias field filled by a peer with 32 bytes 'r' and no NUL. -/
def loud : List Nat := List.replicate 32 114

/-- Session "alice" with the unterminated alias field `loud`. -/
def alice_loud : client_t := { alice with calias := loud }

/-- Session "bob" with the unterminated alias field `loud`. -/
def bob_loud : client_t := { bob with calias := loud }

/-- A `recv` that returned 0 (the peer has closed) and left a zeroed
32-byte buffer. -/
def recv_closed : Recv Nat :=
  ⟨0, field32 []⟩

/-- The server with 127 handlers running: slots 0 to 126 occupied, slot 127
free, `cli_count = 127`, next uid 137. -/
def almost_full : Server :=
  ⟨full_registry.take 127 ++ [none], 127, 137⟩

/-! ## Properties -/

/-! ### C strings -/

theorem cstr_nil : cstr [] = [] := rfl

theorem cstr_cons (a : Nat) (as : List Nat) :
    cstr (a :: as) = if a = 0 then [] else a :: cstr as := by
  unfold cstr
  by_cases h : a = 0 <;> simp [List.takeWhile, h]

theorem cstr_append_of_mem (x y : List Nat) (hx : 0 ∈ x) : cstr (x ++ y) = cstr x := by
  induction x with
  | nil => simp at hx
  | cons a as ih =>
    by_cases ha : a = 0
    · simp [cstr_cons, ha]
    · have has : 0 ∈ as := by
        rcases List.mem_cons.1 hx with h | h
        · exact absurd h.symm ha
        · exact h
      simp [cstr_cons, ha, ih has]

theorem strcmp_of_terminated (a b : List Nat) (ha : 0 ∈ a) (hb : 0 ∈ b) :
    ∃ r, strcmp a b = some r ∧ (r = 0 ↔ cstr a = cstr b) := by
  induction a generalizing b with
  | nil => simp at ha
  | cons x xs ih =>
    cases b with
    | nil => simp at hb
    | cons y ys =>
      by_cases hxy : x = y
      · subst hxy
        by_cases hx : x = 0
        · exact ⟨0, by simp [strcmp, hx], by simp [cstr_cons, hx]⟩
        · have hxs : 0 ∈ xs := by
            rcases List.mem_cons.1 ha with h | h
            · exact absurd h.symm hx
            · exact h
          have hys : 0 ∈ ys := by
            rcases List.mem_cons.1 hb with h | h
            · exact absurd h.symm hx
            · exact h
          obtain ⟨r, hr, hiff⟩ := ih ys hxs hys
          exact ⟨r, by simp [strcmp, hx, hr], by simp [cstr_cons, hx, hiff]⟩
      · refine ⟨(x : Int) - (y : Int), by simp [strcmp, hxy], ?_⟩
        have hne : ¬ ((x : Int) - (y : Int) = 0) := by omega
        by_cases hx : x = 0
        · have hy : y ≠ 0 := fun h => hxy (hx.trans h.symm)
          simp [cstr_cons, hx, hy, hne]
        · by_cases hy : y = 0
          · simp [cstr_cons, hx, hy, hne]
          · simp [cstr_cons, hx, hy, hne, hxy]

theorem strcmp_alias_memory (c : client_t) (calias_from : List Nat) (hc : 0 ∈ c.calias)
    (hfrom : 0 ∈ calias_from) :
    ∃ r, strcmp (alias_memory c) calias_from = some r ∧
      (r = 0 ↔ cstr c.calias = cstr calias_from) := by
  have hmem : 0 ∈ alias_memory c := by
    unfold alias_memory
    exact List.mem_append_left _ (List.mem_append_left _ hc)
  obtain ⟨r, hr, hiff⟩ := strcmp_of_terminated (alias_memory c) calias_from hmem hfrom
  refine ⟨r, hr, ?_⟩
  have hcs : cstr (alias_memory c) = cstr c.calias := by
    unfold alias_memory
    rw [List.append_assoc, cstr_append_of_mem _ _ hc]
  rw [hiff, hcs]

/-! ### Broadcast -/

theorem broadcast_loop_ok (w : Nat → Int) (msg : List Int) (uid_from : Int)
    (calias_from public_key_from : List Nat) (hw : ∀ k, 0 ≤ w k)
    (hpk : public_key_from.length = 32) (hmsg : msg.length = BUFFER_SZ)
    (hfrom : 0 ∈ calias_from) (clients : Registry)
    (hreg : ∀ c, some c ∈ clients → c.uid ≠ uid_from → 0 ∈ c.calias) (k : Nat) :
    ∃ trace, broadcast_loop w msg uid_from calias_from public_key_from clients k = some trace ∧
      trace.map (fun e => (e.fd, e.buf)) =
        ((clients.filterMap id).filter
            (fun c => c.uid ≠ uid_from ∧ cstr c.calias = cstr calias_from)).flatMap
          (fun c => [(c.sockfd, WBuf.bytes public_key_from), (c.sockfd, WBuf.ints msg)]) ∧
      ∀ e ∈ trace, 0 ≤ e.ret := by
  have hpk' : public_key_from.take 32 = public_key_from := by
    rw [← hpk]; exact List.take_length _
  have hmsg' : msg.take BUFFER_SZ = msg := by
    rw [← hmsg]; exact List.take_length _
  induction clients generalizing k with
  | nil => exact ⟨[], by simp [broadcast_loop], by simp, by simp⟩
  | cons o rest ih =>
    have hrest : ∀ c, some c ∈ rest → c.uid ≠ uid_from → 0 ∈ c.calias :=
      fun c hc hu => hreg c (List.mem_cons_of_mem _ hc) hu
    cases o with
    | none =>
      obtain ⟨trace, ht, hmap, hret⟩ := ih hrest k
      exact ⟨trace, by simpa [broadcast_loop] using ht, by simpa using hmap, hret⟩
    | some c =>
      by_cases hu : c.uid ≠ uid_from
      · obtain ⟨r, hr, hiff⟩ :=
          strcmp_alias_memory c calias_from (hreg c (List.mem_cons_self _ _) hu) hfrom
        by_cases hr0 : r = 0
        · have hm' : c.uid ≠ uid_from ∧ cstr c.calias = cstr calias_from := ⟨hu, hiff.1 hr0⟩
          have h0 : ¬ w k < 0 := not_lt.mpr (hw k)
          have h1 : ¬ w (k + 1) < 0 := not_lt.mpr (hw (k + 1))
          obtain ⟨trace, ht, hmap, hret⟩ := ih hrest (k + 2)
          refine ⟨⟨c.sockfd, WBuf.bytes public_key_from, w k⟩ ::
            ⟨c.sockfd, WBuf.ints msg, w (k + 1)⟩ :: trace, ?_, ?_, ?_⟩
          · rw [broadcast_loop, if_pos hu, hr]
            simp only [hr0, if_true, if_neg h0, if_neg h1, ht, Option.map_some', hpk', hmsg']
          · simp only [List.map_cons, hmap, List.filterMap_cons, id]
            rw [List.filter_cons_of_pos (by simpa using hm')]
            simp [List.flatMap_cons]
          · intro e he
            simp only [List.mem_cons] at he
            rcases he with rfl | rfl | he
            · exact hw k
            · exact hw (k + 1)
            · exact hret e he
        · have hm' : ¬ (c.uid ≠ uid_from ∧ cstr c.calias = cstr calias_from) :=
            fun h => hr0 (hiff.2 h.2)
          obtain ⟨trace, ht, hmap, hret⟩ := ih hrest k
          refine ⟨trace, ?_, ?_, hret⟩
          · rw [broadcast_loop, if_pos hu, hr]
            simp only [hr0, if_false, ht]
          · rw [hmap]
            simp only [List.filterMap_cons, id]
            rw [List.filter_cons_of_neg (by simpa using hm')]
      · have hm' : ¬ (c.uid ≠ uid_from ∧ cstr c.calias = cstr calias_from) :=
          fun h => hu h.1
        obtain ⟨trace, ht, hmap, hret⟩ := ih hrest k
        refine ⟨trace, ?_, ?_, hret⟩
        · rw [broadcast_loop, if_neg hu, ht]
        · rw [hmap]
          simp only [List.filterMap_cons, id]
          rw [List.filter_cons_of_neg (by simpa using hm')]

theorem payload_he_length : payload_he.length = BUFFER_SZ := by
  rw [payload_he, List.length_append, List.length_replicate]; rfl

theorem mem_registry_of (c : client_t) (l : List client_t) (h : some c ∈ registry_of l) :
    c ∈ l := by
  unfold registry_of at h
  rcases List.mem_append.1 h with h | h
  · simpa using h
  · exact absurd (List.eq_of_mem_replicate h) (by simp)

/-- C1: when every `write` succeeds and the alias fields compared hold C
strings (a NUL ends the alias of every occupied slot with another uid, and
the sender's alias), `broadcast_msg` writes to exactly the occupied slots
whose uid differs from the sender's uid and whose alias is string-equal to the
sender's alias, in slot order and once per slot, and to no other descriptor;
each such slot is sent the sender's 32-byte public-key field and then the
unmodified payload buffer, and every one of these writes returned a
non-negative value. -/
theorem broadcast_msg_delivers_to_room (w : Nat → Int) (clients : Registry) (msg : List Int)
    (uid_from : Int) (calias_from public_key_from : List Nat) (hw : ∀ k, 0 ≤ w k)
    (hpk : public_key_from.length = 32) (hmsg : msg.length = BUFFER_SZ)
    (hreg : ∀ c, some c ∈ clients → c.uid ≠ uid_from → 0 ∈ c.calias)
    (hfrom : 0 ∈ calias_from) :
    ∃ trace, broadcast_msg w clients msg uid_from calias_from public_key_from = some trace ∧
      trace.map (fun e => (e.fd, e.buf)) =
        ((clients.filterMap id).filter
            (fun c => c.uid ≠ uid_from ∧ cstr c.calias = cstr calias_from)).flatMap
          (fun c => [(c.sockfd, WBuf.bytes public_key_from), (c.sockfd, WBuf.ints msg)]) ∧
      ∀ e ∈ trace, 0 ≤ e.ret :=
  broadcast_loop_ok w msg uid_from calias_from public_key_from hw hpk hmsg hfrom clients hreg 0

/-- Witness for C1: "alice", "bob" (both in "room1") and "dave" (in "room2")
are registered and every write returns 32; a broadcast from "alice" writes
her key field and the payload to the descriptor of "bob" and nothing else. -/
theorem broadcast_msg_delivers_to_room_witness :
    ∃ trace, broadcast_msg (fun _ => 32) (registry_of [alice, bob, dave]) payload_he alice.uid
        (alias_memory alice) alice.public_key_str = some trace ∧
      trace.map (fun e => (e.fd, e.buf)) =
        [(5, WBuf.bytes alice.public_key_str), (5, WBuf.ints payload_he)] := by
  obtain ⟨trace, ht, hmap, _⟩ :=
    broadcast_msg_delivers_to_room (fun _ => 32) (registry_of [alice, bob, dave]) payload_he
      alice.uid (alias_memory alice) alice.public_key_str
      (fun _ => by show (0 : Int) ≤ 32; decide) (by decide) payload_he_length
      (fun c hc _ => by
        have hmem := mem_registry_of c _ hc
        simp only [List.mem_cons, List.mem_singleton, List.not_mem_nil, or_false] at hmem
        rcases hmem with rfl | rfl | rfl <;> decide)
      (by decide)
  refine ⟨trace, ht, ?_⟩
  rw [hmap]
  rfl

/-- With alias fields that hold no NUL, `strcmp` runs on into the key fields:
for two sessions whose alias fields are the same 32 bytes and whose keys are
"19" and "8" it returns '1' - '8' = -7, and a broadcast between them writes
nothing. -/
theorem broadcast_msg_unterminated_alias :
    strcmp (alias_memory bob_loud) (alias_memory alice_loud) = some (-7) ∧
    broadcast_msg (fun _ => 32) (registry_of [alice_loud, bob_loud]) payload_he alice_loud.uid
        (alias_memory alice_loud) alice_loud.public_key_str = some [] := by
  refine ⟨by decide, by decide⟩

/-- C2 (the code at the failing input): "alice", "bob" and "carol" are all in
"room1" and the first `write`, the one to "bob", returns -1; the broadcast
from "alice" consists of that single failed call, so "carol" in the next slot
is sent neither the key field nor the payload. -/
theorem broadcast_msg_stops_at_failed_write :
    broadcast_msg (fun k => if k = 0 then -1 else 32) (registry_of [alice, bob, carol])
        payload_he alice.uid (alias_memory alice) alice.public_key_str =
      some [⟨bob.sockfd, WBuf.bytes alice.public_key_str, -1⟩] := by
  decide

/-! ### Registry -/

theorem uids_nil : uids [] = [] := rfl

theorem uids_cons_none (r : Registry) : uids (none :: r) = uids r := by
  simp [uids]

theorem uids_cons_some (c : client_t) (r : Registry) : uids (some c :: r) = c.uid :: uids r := by
  simp [uids]

theorem mem_uids_iff (u : Int) (r : Registry) :
    u ∈ uids r ↔ ∃ c, some c ∈ r ∧ c.uid = u := by
  induction r with
  | nil => simp [uids]
  | cons o rest ih =>
    cases o with
    | none => simp [uids_cons_none, ih]
    | some c =>
      simp only [uids_cons_some, List.mem_cons, ih, Option.some.injEq]
      constructor
      · rintro (h | ⟨d, hd, hu⟩)
        · exact ⟨c, Or.inl rfl, h.symm⟩
        · exact ⟨d, Or.inr hd, hu⟩
      · rintro ⟨d, (hd | hd), hu⟩
        · left; rw [← hu, hd]
        · exact Or.inr ⟨d, hd, hu⟩

theorem queue_remove_absent (uid : Int) (r : Registry) (h : uid ∉ uids r) :
    queue_remove uid r = r := by
  induction r with
  | nil => rfl
  | cons o rest ih =>
    cases o with
    | none =>
      rw [uids_cons_none] at h
      simp [queue_remove, ih h]
    | some c =>
      rw [uids_cons_some, List.mem_cons, not_or] at h
      have hc : ¬ c.uid = uid := fun e => h.1 e.symm
      simp [queue_remove, hc, ih h.2]

theorem not_mem_uids_queue_remove (uid : Int) (r : Registry) (hd : (uids r).Nodup) :
    uid ∉ uids (queue_remove uid r) := by
  induction r with
  | nil => simp [queue_remove, uids]
  | cons o rest ih =>
    cases o with
    | none =>
      rw [uids_cons_none] at hd
      simpa [queue_remove, uids_cons_none] using ih hd
    | some c =>
      rw [uids_cons_some, List.nodup_cons] at hd
      by_cases hc : c.uid = uid
      · simp only [queue_remove, hc, if_true, uids_cons_none]
        rw [← hc]; exact hd.1
      · simp only [queue_remove, hc, if_false, uids_cons_some, List.mem_cons, not_or]
        exact ⟨fun e => hc e.symm, ih hd.2⟩

theorem queue_remove_present (uid : Int) (r : Registry) (hd : (uids r).Nodup) (i : Nat)
    (c : client_t) (hi : r[i]? = some (some c)) (hu : c.uid = uid) :
    queue_remove uid r = r.set i none := by
  induction r generalizing i with
  | nil => simp at hi
  | cons o rest ih =>
    cases i with
    | zero =>
      simp only [List.getElem?_cons_zero, Option.some.injEq] at hi
      subst hi
      simp [queue_remove, hu]
    | succ j =>
      simp only [List.getElem?_cons_succ] at hi
      have hmem : uid ∈ uids rest :=
        (mem_uids_iff uid rest).2 ⟨c, List.getElem?_mem hi, hu⟩
      cases o with
      | none =>
        rw [uids_cons_none] at hd
        simp [queue_remove, ih hd j hi]
      | some d =>
        rw [uids_cons_some, List.nodup_cons] at hd
        have hne : ¬ d.uid = uid := fun e => hd.1 (e ▸ hmem)
        simp [queue_remove, hne, ih hd.2 j hi]

theorem queue_add_full (cl : client_t) (clients : Registry)
    (hfull : ∀ o ∈ clients, o ≠ none) : queue_add cl clients = ((), clients) := by
  induction clients with
  | nil => rfl
  | cons o rest ih =>
    cases o with
    | none => exact absurd rfl (hfull none (List.mem_cons_self _ _))
    | some c =>
      have := ih (fun o ho => hfull o (List.mem_cons_of_mem _ ho))
      simp [queue_add, this]

/-- C7 (counterexample): `queue_add` hands its caller the same value `()`
whether every slot is occupied or every slot is free, so nothing computed from
what it returns tells the failed insertion from a successful one: no failure
report reaches the caller. -/
theorem queue_add_reports_nothing :
    ¬ ∃ report : Unit → Bool,
        report (queue_add dave full_registry).1 = false ∧
        report (queue_add dave server_init.clients).1 = true := by
  rintro ⟨report, h1, h2⟩
  have h : (queue_add dave full_registry).1 = (queue_add dave server_init.clients).1 := rfl
  rw [h, h2] at h1
  exact Bool.noConfusion h1

/-- C7 (amended): on a registry in which every slot is occupied `queue_add`
leaves every slot unchanged and returns nothing but `()`: the new session is
dropped silently. -/
theorem queue_add_full_unchanged (cl : client_t) (clients : Registry)
    (hfull : ∀ o ∈ clients, o ≠ none) : queue_add cl clients = ((), clients) :=
  queue_add_full cl clients hfull

/-- Witness for C7: adding "dave" to the fully occupied sample registry. -/
theorem queue_add_full_unchanged_witness :
    queue_add dave full_registry = ((), full_registry) :=
  queue_add_full_unchanged dave full_registry (by simp [full_registry])

/-- C8: on a registry whose sessions have pairwise distinct uids,
`queue_remove uid` applied twice gives the registry that one application
gives; when no session has that uid every slot is unchanged; and when slot `i`
holds the session with that uid, exactly slot `i` is cleared. -/
theorem queue_remove_idempotent (uid : Int) (clients : Registry)
    (hd : (uids clients).Nodup) :
    queue_remove uid (queue_remove uid clients) = queue_remove uid clients ∧
    (uid ∉ uids clients → queue_remove uid clients = clients) ∧
    (∀ (i : Nat) (c : client_t), clients[i]? = some (some c) → c.uid = uid →
      queue_remove uid clients = clients.set i none) :=
  ⟨queue_remove_absent uid _ (not_mem_uids_queue_remove uid clients hd),
   queue_remove_absent uid clients,
   fun i c hi hu => queue_remove_present uid clients hd i c hi hu⟩

/-- Witness for C8: removing uid 11 ("bob") from the registry of "alice",
"bob" and "carol", once or twice, leaves "alice", an empty slot and "carol". -/
theorem queue_remove_idempotent_witness :
    (uids (registry_of [alice, bob, carol])).Nodup ∧
    queue_remove 11 (queue_remove 11 (registry_of [alice, bob, carol])) =
      queue_remove 11 (registry_of [alice, bob, carol]) ∧
    queue_remove 11 (registry_of [alice, bob, carol]) =
      (registry_of [alice, bob, carol]).set 1 none :=
  ⟨by decide,
   (queue_remove_idempotent 11 (registry_of [alice, bob, carol]) (by decide)).1,
   (queue_remove_idempotent 11 (registry_of [alice, bob, carol]) (by decide)).2.2 1 bob (by simp [registry_of]) (by decide)⟩

/-! ### Key agreement -/

theorem tmod_neg_left (x m : Int) : Int.tmod (-x) m = -(Int.tmod x m) := by
  rw [Int.tmod_def, Int.tmod_def, Int.neg_tdiv]; ring

theorem tmod_modEq (x m : Int) : Int.tmod x m ≡ x [ZMOD m] := by
  unfold Int.ModEq
  rw [Int.tmod_def, sub_eq_add_neg, ← mul_neg, Int.add_mul_emod_self_left]

theorem abs_tmod_le (x m : Int) (hm : 0 < m) : |Int.tmod x m| ≤ m - 1 := by
  rcases le_or_lt 0 x with hx | hx
  · have h1 := Int.tmod_nonneg m hx
    have h2 := Int.tmod_lt_of_pos x hm
    rw [abs_of_nonneg h1]; omega
  · have hx' : 0 ≤ -x := by omega
    have h1 := Int.tmod_nonneg m hx'
    have h2 := Int.tmod_lt_of_pos (-x) hm
    rw [tmod_neg_left] at h1 h2
    rw [abs_of_nonpos (by omega)]; omega

theorem tmod_mul_congr (X Y a m : Int) (hm : 0 < m) (hX : 0 ≤ X) (hY : 0 ≤ Y)
    (h : X ≡ Y [ZMOD m]) : Int.tmod (X * a) m = Int.tmod (Y * a) m := by
  have key : ∀ t : Int, 0 ≤ t → Int.tmod (X * t) m = Int.tmod (Y * t) m := by
    intro t ht
    rw [Int.tmod_eq_emod (mul_nonneg hX ht) hm.le, Int.tmod_eq_emod (mul_nonneg hY ht) hm.le]
    exact h.mul_right t
  rcases le_or_lt 0 a with ha | ha
  · exact key a ha
  · have e1 : X * a = -(X * (-a)) := by ring
    have e2 : Y * a = -(Y * (-a)) := by ring
    rw [e1, e2, tmod_neg_left, tmod_neg_left, key (-a) (by omega)]

theorem int_mul_some (x y : Int) (h : |x * y| ≤ INT_MAX) : int_mul x y = some (x * y) := by
  have h' := abs_le.mp h
  unfold int_mul
  rw [if_pos]
  refine ⟨?_, h'.2⟩
  have : INT_MIN ≤ -INT_MAX := by decide
  exact le_trans this h'.1

theorem int_rem_some (x m : Int) (hm : 0 < m) : int_rem x m = some (Int.tmod x m) := by
  unfold int_rem
  rw [if_neg]
  rintro (h | ⟨_, h⟩) <;> omega

theorem bpow_nat (a m : Int) (hm : 2 ≤ m) (hr : (m - 1) ^ 2 * max |a| 1 ≤ INT_MAX) (n : Nat) :
    bpow a (n : Int) m = some (Int.tmod (a ^ n) m) := by
  have hm0 : 0 < m := by omega
  have hsq : 0 ≤ (m - 1) ^ 2 := sq_nonneg _
  induction n using Nat.strong_induction_on with
  | _ n ih =>
    rw [bpow]
    by_cases hn : (n : Int) = 0
    · have hn' : n = 0 := by exact_mod_cast hn
      subst hn'
      rw [if_pos hn, pow_zero, Int.tmod_eq_of_lt (by decide) (by omega)]
    · rw [if_neg hn]
      have hn' : n ≠ 0 := fun e => hn (by exact_mod_cast e)
      have hdiv : Int.tdiv (n : Int) 2 = ((n / 2 : Nat) : Int) := by
        rw [Int.tdiv_eq_ediv (by omega) (by decide)]; norm_cast
      have hmod : Int.tmod (n : Int) 2 = ((n % 2 : Nat) : Int) := by
        rw [Int.tmod_eq_emod (by omega) (by decide)]; norm_cast
      rw [hdiv, ih (n / 2) (by omega), hmod]
      set c := Int.tmod (a ^ (n / 2)) m with hc
      have hcabs : |c| ≤ m - 1 := abs_tmod_le _ _ hm0
      have hcc : |c * c| ≤ (m - 1) ^ 2 := by
        rw [abs_mul, ← sq]
        exact pow_le_pow_left₀ (abs_nonneg c) hcabs 2
      have hcc0 : 0 ≤ c * c := mul_self_nonneg c
      have hmax1 : (m - 1) ^ 2 * 1 ≤ (m - 1) ^ 2 * max |a| 1 :=
        mul_le_mul_of_nonneg_left (le_max_right _ _) hsq
      have hmaxa : (m - 1) ^ 2 * |a| ≤ (m - 1) ^ 2 * max |a| 1 :=
        mul_le_mul_of_nonneg_left (le_max_left _ _) hsq
      have h1 : int_mul c c = some (c * c) := int_mul_some c c (by omega)
      have hcong : c * c ≡ a ^ (n / 2) * a ^ (n / 2) [ZMOD m] :=
        (tmod_modEq _ _).mul (tmod_modEq _ _)
      have hpp : 0 ≤ a ^ (n / 2) * a ^ (n / 2) := mul_self_nonneg _
      rcases Nat.mod_two_eq_zero_or_one n with h2 | h2
      · have hnk : n = n / 2 + n / 2 := by omega
        simp only [h2, Nat.cast_zero, if_true, h1, Option.some_bind, Option.bind_some]
        rw [int_rem_some _ _ hm0]
        have := tmod_mul_congr _ _ 1 m hm0 hcc0 hpp hcong
        rw [mul_one, mul_one] at this
        rw [this, ← pow_add, ← hnk]
      · have hnk : n = n / 2 + n / 2 + 1 := by omega
        have hne : ¬ ((1 : Nat) : Int) = 0 := by decide
        have hcca : |c * c * a| ≤ INT_MAX := by
          rw [abs_mul]
          calc |c * c| * |a| ≤ (m - 1) ^ 2 * |a| :=
                mul_le_mul_of_nonneg_right hcc (abs_nonneg a)
            _ ≤ INT_MAX := le_trans hmaxa hr
        have h3 : int_mul (c * c) a = some (c * c * a) := int_mul_some _ _ hcca
        simp only [h2, hne, if_false, h1, h3, Option.some_bind, Option.bind_some]
        rw [int_rem_some _ _ hm0, tmod_mul_congr _ _ a m hm0 hcc0 hpp hcong]
        congr 2
        conv_rhs => rw [hnk]
        rw [pow_succ, pow_add]

theorem tmod_pow_congr (y m : Int) (hm : 0 < m) (n : Nat) :
    Int.tmod ((Int.tmod y m) ^ n) m = Int.tmod (y ^ n) m := by
  have key : ∀ z : Int, 0 ≤ z → Int.tmod ((Int.tmod z m) ^ n) m = Int.tmod (z ^ n) m := by
    intro z hz
    have h1 : 0 ≤ Int.tmod z m := Int.tmod_nonneg m hz
    rw [Int.tmod_eq_emod (pow_nonneg h1 n) hm.le, Int.tmod_eq_emod (pow_nonneg hz n) hm.le]
    exact (tmod_modEq z m).pow n
  rcases le_or_lt 0 y with hy | hy
  · exact key y hy
  · obtain ⟨z, rfl⟩ : ∃ z, y = -z := ⟨-y, by ring⟩
    have hz := key z (by omega)
    rw [tmod_neg_left]
    rcases Nat.even_or_odd n with hn | hn
    · rw [hn.neg_pow, hn.neg_pow]; exact hz
    · rw [hn.neg_pow, hn.neg_pow, tmod_neg_left, tmod_neg_left, hz]

theorem bpow_bpow (g a b p : Int) (ha : 0 ≤ a) (hb : 0 ≤ b) (hp : 2 ≤ p)
    (hr : (p - 1) ^ 2 * max |g| (p - 1) ≤ INT_MAX) :
    (bpow g a p).bind (fun x => bpow x b p) =
      some (Int.tmod (g ^ (a.toNat * b.toNat)) p) := by
  have hp0 : 0 < p := by omega
  have hsq : 0 ≤ (p - 1) ^ 2 := sq_nonneg _
  have hg : (p - 1) ^ 2 * max |g| 1 ≤ INT_MAX := by
    refine le_trans (mul_le_mul_of_nonneg_left ?_ hsq) hr
    exact max_le_max le_rfl (by omega)
  have hx : (p - 1) ^ 2 * max |Int.tmod (g ^ a.toNat) p| 1 ≤ INT_MAX := by
    refine le_trans (mul_le_mul_of_nonneg_left ?_ hsq) hr
    exact le_trans (max_le (abs_tmod_le _ _ hp0) (by omega)) (le_max_right _ _)
  have e1 := bpow_nat g p hp hg a.toNat
  rw [Int.toNat_of_nonneg ha] at e1
  have e2 := bpow_nat (Int.tmod (g ^ a.toNat) p) p hp hx b.toNat
  rw [Int.toNat_of_nonneg hb] at e2
  rw [e1, Option.some_bind, e2, tmod_pow_congr _ _ hp0, ← pow_mul]

theorem bpow_zero (a m : Int) : bpow a 0 m = some 1 := by
  rw [bpow]; rfl

theorem bpow_step (a b m : Int) (hb : b ≠ 0) :
    bpow a b m =
      (bpow a (Int.tdiv b 2) m).bind (fun c =>
        if Int.tmod b 2 = 0 then (int_mul c c).bind (fun cc => int_rem cc m)
        else (int_mul c c).bind (fun cc => (int_mul cc a).bind (fun cca => int_rem cca m))) := by
  rw [bpow, if_neg hb]
  cases bpow a (Int.tdiv b 2) m <;> rfl

/-- C3 (counterexample): with modulus 1 and exponent 0 `bpow` returns 1 while
`7^0 mod 1` is 0; and for base 65536, exponent 2 and modulus 2147483647 the
product `c * c` is `2^32`, outside `int`, so `bpow` has no defined result,
while `65536^2 mod 2147483647` is 2. -/
theorem bpow_not_power_mod :
    bpow 7 0 1 = some 1 ∧ (7 : Int) ^ 0 % 1 = 0 ∧
    bpow 65536 2 2147483647 = none ∧ (65536 : Int) ^ 2 % 2147483647 = 2 := by
  refine ⟨bpow_zero 7 1, by decide, ?_, by decide⟩
  simp [bpow_step, bpow_zero, int_mul, int_rem, INT_MIN, INT_MAX, Int.tdiv_eq_ediv,
    Int.tmod_eq_emod]

/-- C3 (amended): for every base `a`, every exponent `b ≥ 0` and every modulus
`m ≥ 2` with `(m - 1)^2 * max(|a|, 1) ≤ INT_MAX`, `bpow a b m` and
`compute_key a b m` return `a^b % m`, `%` being the remainder of C; for
`a ≥ 0` that is the residue `a^b mod m`. -/
theorem bpow_returns_power_mod (a b m : Int) (hb : 0 ≤ b) (hm : 2 ≤ m)
    (hr : (m - 1) ^ 2 * max |a| 1 ≤ INT_MAX) :
    bpow a b m = some (Int.tmod (a ^ b.toNat) m) ∧
    compute_key a b m = some (Int.tmod (a ^ b.toNat) m) ∧
    (0 ≤ a → Int.tmod (a ^ b.toNat) m = a ^ b.toNat % m) := by
  have h := bpow_nat a m hm hr b.toNat
  rw [Int.toNat_of_nonneg hb] at h
  exact ⟨h, h, fun ha => Int.tmod_eq_emod (pow_nonneg ha _) (by omega)⟩

/-- Witness for C3: the public key for private exponent 6 with `G = 5` and
`P = 23` is `5^6 mod 23 = 8`. -/
theorem bpow_returns_power_mod_witness :
    bpow 5 6 23 = some 8 ∧ compute_key 5 6 23 = some 8 := by
  have h := bpow_returns_power_mod 5 6 23 (by decide) (by decide) (by decide)
  exact ⟨h.1, h.2.1⟩

/-- C4 (counterexample): with modulus 1 and exponents 0 and 1 the two orders
give the keys 0 and 1; and with generator 3, exponents 4 and 7 and modulus
1000003 a product leaves `int` in either order, so no key is defined. -/
theorem compute_key_not_commutative :
    (compute_key 2 0 1).bind (fun x => compute_key x 1 1) = some 0 ∧
    (compute_key 2 1 1).bind (fun y => compute_key y 0 1) = some 1 ∧
    (compute_key 3 4 1000003).bind (fun x => compute_key x 7 1000003) = none ∧
    (compute_key 3 7 1000003).bind (fun y => compute_key y 4 1000003) = none := by
  refine ⟨?_, ?_, ?_, ?_⟩ <;>
  simp [compute_key, bpow_step, bpow_zero, int_mul, int_rem, INT_MIN, INT_MAX,
    Int.tdiv_eq_ediv, Int.tmod_eq_emod]

/-- C4 (amended): for every generator `g`, exponents `a, b ≥ 0` and modulus
`p ≥ 2` with `(p - 1)^2 * max(|g|, p - 1) ≤ INT_MAX`, both orders of the two
`compute_key` calls are defined and give the same shared secret,
`g^(a*b) % p`. -/
theorem compute_key_commutes (g a b p : Int) (ha : 0 ≤ a) (hb : 0 ≤ b) (hp : 2 ≤ p)
    (hr : (p - 1) ^ 2 * max |g| (p - 1) ≤ INT_MAX) :
    (compute_key g a p).bind (fun x => compute_key x b p) =
      some (Int.tmod (g ^ (a.toNat * b.toNat)) p) ∧
    (compute_key g b p).bind (fun y => compute_key y a p) =
      some (Int.tmod (g ^ (a.toNat * b.toNat)) p) := by
  refine ⟨bpow_bpow g a b p ha hb hp hr, ?_⟩
  rw [mul_comm a.toNat b.toNat]
  exact bpow_bpow g b a p hb ha hp hr

/-- Witness for C4: with `G = 5`, `P = 23` and private exponents 6 and 15
both peers derive the key 2. -/
theorem compute_key_commutes_witness :
    (compute_key 5 6 23).bind (fun x => compute_key x 15 23) = some 2 ∧
    (compute_key 5 15 23).bind (fun y => compute_key y 6 23) = some 2 := by
  have h := compute_key_commutes 5 6 15 23 (by decide) (by decide) (by decide) (by decide)
  have e : Int.tmod ((5 : Int) ^ ((6 : Int).toNat * (15 : Int).toNat)) 23 = 2 := by
    simp [Int.tmod_eq_emod]
  rw [e] at h
  exact h

/-! ### Reachable states -/

theorem uids_store_client (cli : client_t) (r : Registry) :
    uids (store_client cli r) = uids r := by
  induction r with
  | nil => rfl
  | cons o rest ih =>
    cases o with
    | none => simp [store_client, uids_cons_none, ih]
    | some c =>
      by_cases h : c.uid = cli.uid
      · simp [store_client, h, uids_cons_some, ih]
      · simp [store_client, h, uids_cons_some, ih]

theorem uids_queue_remove_sublist (u : Int) (r : Registry) :
    (uids (queue_remove u r)).Sublist (uids r) := by
  induction r with
  | nil => simp [queue_remove]
  | cons o rest ih =>
    cases o with
    | none => simpa [queue_remove, uids_cons_none] using ih
    | some c =>
      by_cases h : c.uid = u
      · simp [queue_remove, h, uids_cons_none, uids_cons_some]
      · simp only [queue_remove, h, if_false, uids_cons_some]
        exact ih.cons₂ _

theorem mem_uids_queue_add (cl : client_t) (r : Registry) (u : Int)
    (h : u ∈ uids (queue_add cl r).2) : u = cl.uid ∨ u ∈ uids r := by
  induction r with
  | nil => simp [queue_add, uids] at h
  | cons o rest ih =>
    cases o with
    | none =>
      simp only [queue_add, uids_cons_some, List.mem_cons] at h
      rw [uids_cons_none]; exact h
    | some c =>
      simp only [queue_add, uids_cons_some, List.mem_cons] at h ⊢
      rcases h with h | h
      · exact Or.inr (Or.inl h)
      · rcases ih h with h | h
        · exact Or.inl h
        · exact Or.inr (Or.inr h)

theorem nodup_uids_queue_add (cl : client_t) (r : Registry) (hd : (uids r).Nodup)
    (hn : cl.uid ∉ uids r) : (uids (queue_add cl r).2).Nodup := by
  induction r with
  | nil => simp [queue_add, uids]
  | cons o rest ih =>
    cases o with
    | none =>
      rw [uids_cons_none] at hd hn
      simp only [queue_add, uids_cons_some, List.nodup_cons]
      exact ⟨hn, hd⟩
    | some c =>
      rw [uids_cons_some] at hd hn
      rw [List.nodup_cons] at hd
      rw [List.mem_cons, not_or] at hn
      simp only [queue_add, uids_cons_some, List.nodup_cons]
      refine ⟨fun hmem => ?_, ih hd.2 hn.2⟩
      rcases mem_uids_queue_add cl rest c.uid hmem with h | h
      · exact hn.1 h.symm
      · exact hd.1 h

/-- Invariant of the server state: the uids in the registry are pairwise
distinct and all below the `uid` counter. -/
theorem step_invariant (s s' : Server) (hs : Step s s')
    (hinv : (uids s.clients).Nodup ∧ ∀ u ∈ uids s.clients, u < s.uid) :
    (uids s'.clients).Nodup ∧ ∀ u ∈ uids s'.clients, u < s'.uid := by
  cases hs with
  | accept connfd cli_addr fresh _ o hacc =>
    unfold main_iteration at hacc
    split at hacc
    · simp only [Option.some.injEq, Prod.mk.injEq] at hacc
      rw [← hacc.1]; exact hinv
    · split at hacc
      · simp only [Option.some.injEq, Prod.mk.injEq] at hacc
        rw [← hacc.1]
        refine ⟨nodup_uids_queue_add _ _ hinv.1 ?_, ?_⟩
        · intro hmem
          exact lt_irrefl _ (hinv.2 _ hmem)
        · intro u hu
          rcases mem_uids_queue_add _ _ u hu with h | h
          · simp only at h ⊢; omega
          · have := hinv.2 u h
            simp only; omega
      · exact absurd hacc (by simp)
  | enter => exact hinv
  | store cli =>
    simp only [uids_store_client]
    exact hinv
  | leave cli =>
    have hsub := uids_queue_remove_sublist cli.uid s.clients
    exact ⟨hinv.1.sublist hsub, fun u hu => hinv.2 u (hsub.subset hu)⟩

theorem reachable_invariant (s : Server) (h : Reachable s) :
    (uids s.clients).Nodup ∧ ∀ u ∈ uids s.clients, u < s.uid := by
  induction h with
  | init =>
    have : uids server_init.clients = [] := by
      simp [server_init, uids, List.filterMap_replicate]
    rw [this]
    exact ⟨List.nodup_nil, by simp⟩
  | step s s' _ hstep ih => exact step_invariant s s' hstep ih

theorem queue_add_getElem (cl : client_t) (r : Registry) (i : Nat) (c : client_t)
    (h : r[i]? = some (some c)) : (queue_add cl r).2[i]? = some (some c) := by
  induction r generalizing i with
  | nil => simp at h
  | cons o rest ih =>
    cases o with
    | none =>
      cases i with
      | zero => simp at h
      | succ j => simpa [queue_add] using h
    | some d =>
      cases i with
      | zero => simpa [queue_add] using h
      | succ j =>
        simp only [List.getElem?_cons_succ] at h
        simpa [queue_add] using ih j h

theorem queue_remove_getElem (u : Int) (r : Registry) (i : Nat) (c : client_t)
    (h : (queue_remove u r)[i]? = some (some c)) : r[i]? = some (some c) := by
  induction r generalizing i with
  | nil => simp [queue_remove] at h
  | cons o rest ih =>
    cases o with
    | none =>
      cases i with
      | zero => simp [queue_remove] at h
      | succ j =>
        simp only [queue_remove, List.getElem?_cons_succ] at h ⊢
        exact ih j h
    | some d =>
      by_cases hd : d.uid = u
      · cases i with
        | zero => simp [queue_remove, hd] at h
        | succ j => simpa [queue_remove, hd] using h
      · cases i with
        | zero => simpa [queue_remove, hd] using h
        | succ j =>
          simp only [queue_remove, hd, if_false, List.getElem?_cons_succ] at h ⊢
          exact ih j h

theorem store_client_getElem (cli : client_t) (r : Registry) (i : Nat) (c c' : client_t)
    (h : r[i]? = some (some c)) (h' : (store_client cli r)[i]? = some (some c')) :
    c'.uid = c.uid := by
  induction r generalizing i with
  | nil => simp at h
  | cons o rest ih =>
    cases o with
    | none =>
      cases i with
      | zero => simp at h
      | succ j =>
        simp only [store_client, List.getElem?_cons_succ] at h h'
        exact ih j h h'
    | some d =>
      cases i with
      | zero =>
        simp only [List.getElem?_cons_zero, Option.some.injEq] at h
        subst h
        by_cases hd : d.uid = cli.uid
        · simp only [store_client, hd, if_true, List.getElem?_cons_zero,
            Option.some.injEq] at h'
          rw [← h', hd]
        · simp only [store_client, hd, if_false, List.getElem?_cons_zero,
            Option.some.injEq] at h'
          rw [h']
      | succ j =>
        simp only [store_client, List.getElem?_cons_succ] at h h'
        exact ih j h h'

theorem step_keeps_uid (s s' : Server) (hs : Step s s') (i : Nat) (c c' : client_t)
    (h : s.clients[i]? = some (some c)) (h' : s'.clients[i]? = some (some c')) :
    c'.uid = c.uid := by
  cases hs with
  | accept connfd cli_addr fresh _ o hacc =>
    unfold main_iteration at hacc
    split at hacc
    · simp only [Option.some.injEq, Prod.mk.injEq] at hacc
      rw [← hacc.1, h] at h'
      simp only [Option.some.injEq] at h'
      rw [h']
    · split at hacc
      · simp only [Option.some.injEq, Prod.mk.injEq] at hacc
        rw [← hacc.1] at h'
        simp only at h'
        rw [queue_add_getElem _ _ i c h] at h'
        simp only [Option.some.injEq] at h'
        rw [h']
      · exact absurd hacc (by simp)
  | enter =>
    simp only at h'
    rw [h] at h'
    simp only [Option.some.injEq] at h'
    rw [h']
  | store cli => exact store_client_getElem cli s.clients i c c' h h'
  | leave cli =>
    have := queue_remove_getElem cli.uid s.clients i c' h'
    rw [h] at this
    simp only [Option.some.injEq] at this
    rw [this]

theorem uids_pairwise (r : Registry) (hd : (uids r).Nodup) (i j : Nat) (c d : client_t)
    (hij : i < j) (hc : r[i]? = some (some c)) (hdj : r[j]? = some (some d)) :
    c.uid ≠ d.uid := by
  induction r generalizing i j with
  | nil => simp at hc
  | cons o rest ih =>
    cases j with
    | zero => omega
    | succ j' =>
      simp only [List.getElem?_cons_succ] at hdj
      cases i with
      | zero =>
        simp only [List.getElem?_cons_zero, Option.some.injEq] at hc
        subst hc
        rw [uids_cons_some, List.nodup_cons] at hd
        intro e
        exact hd.1 ((mem_uids_iff _ _).2 ⟨d, List.getElem?_mem hdj, e.symm⟩)
      | succ i' =>
        simp only [List.getElem?_cons_succ] at hc
        have hd' : (uids rest).Nodup := by
          cases o with
          | none => rwa [uids_cons_none] at hd
          | some e =>
            rw [uids_cons_some, List.nodup_cons] at hd
            exact hd.2
        exact ih hd' i' j' (by omega) hc hdj

/-- C9: in every state reachable from the start-up state by iterations of the
accept loop (uid assignment and `queue_add`), handlers' counter updates and
record writes, and teardowns (`queue_remove`), the sessions held in two
different slots have different uids (the list of uids has no duplicate); and
no step changes the uid of a session that stays in its slot. -/
theorem uids_distinct_and_stable (s : Server) (h : Reachable s) :
    (∀ (i j : Nat) (c d : client_t), i ≠ j → s.clients[i]? = some (some c) →
      s.clients[j]? = some (some d) → c.uid ≠ d.uid) ∧
    (uids s.clients).Nodup ∧
    ∀ s', Step s s' → ∀ (i : Nat) (c c' : client_t),
      s.clients[i]? = some (some c) → s'.clients[i]? = some (some c') → c'.uid = c.uid := by
  have hn := (reachable_invariant s h).1
  refine ⟨?_, hn, fun s' hs i c c' hc hc' => step_keeps_uid s s' hs i c c' hc hc'⟩
  intro i j c d hij hc hd
  rcases Nat.lt_or_gt_of_ne hij with h1 | h1
  · exact uids_pairwise s.clients hn i j c d h1 hc hd
  · exact fun e => uids_pairwise s.clients hn j i d c h1 hd hc e.symm

/-- Witness for C9: the state after "alice" and then "bob" were accepted. -/
theorem uids_distinct_and_stable_witness :
    (uids (registry_of [alice, bob])).Nodup :=
  (uids_distinct_and_stable ⟨registry_of [alice, bob], 0, 12⟩
    (Reachable.step ⟨registry_of [alice], 0, 11⟩ _
      (Reachable.step server_init _ Reachable.init
        (Step.accept server_init 4 0 alice ⟨registry_of [alice], 0, 11⟩ (Outcome.spawned alice)
          (by decide)))
      (Step.accept ⟨registry_of [alice], 0, 11⟩ 5 0 bob ⟨registry_of [alice, bob], 0, 12⟩
        (Outcome.spawned bob) (by decide)))).2.1

/-! ### Connection handler and accept loop -/

theorem handshake_uid (cli : client_t) (rn ra rp : Recv Nat) :
    (handshake cli rn ra rp).1.uid = cli.uid := by
  unfold handshake
  split
  · rfl
  · split <;> rfl

theorem handshake_leave_flag (cli : client_t) (rn ra rp : Recv Nat) :
    (handshake cli rn ra rp).2 = false ↔
      0 < rn.rc ∧ 2 ≤ strlen rn.buf ∧ strlen rn.buf < 31 ∧ 0 < ra.rc := by
  unfold handshake
  by_cases h1 : rn.rc ≤ 0 ∨ strlen rn.buf < 2 ∨ strlen rn.buf ≥ 32 - 1
  · rw [if_pos h1]
    simp only [Bool.true_eq_false, false_iff]
    rintro ⟨a, b, c, _⟩
    rcases h1 with h | h | h <;> omega
  · rw [if_neg h1]
    simp only [not_or, not_le, not_lt] at h1
    dsimp only
    by_cases h2 : ra.rc > 0
    · rw [if_pos h2]
      exact ⟨fun _ => ⟨h1.1, h1.2.1, by omega, h2⟩, fun _ => rfl⟩
    · rw [if_neg h2]
      exact ⟨fun h => absurd h (by simp), fun ⟨_, _, _, d⟩ => absurd d h2⟩

theorem relay_loop_leave (cli : client_t) (msgs : List (Recv Int)) :
    relay_loop cli true msgs = ([], true) := by
  cases msgs <;> rfl

theorem store_client_absent (cli : client_t) (r : Registry) (h : cli.uid ∉ uids r) :
    store_client cli r = r := by
  induction r with
  | nil => rfl
  | cons o rest ih =>
    cases o with
    | none =>
      rw [uids_cons_none] at h
      simp [store_client, ih h]
    | some c =>
      rw [uids_cons_some, List.mem_cons, not_or] at h
      have hc : ¬ c.uid = cli.uid := fun e => h.1 e.symm
      simp [store_client, hc, ih h.2]

theorem queue_remove_store_queue_add (u : Int) (cl cl' : client_t) (r : Registry)
    (hu : u ∉ uids r) (h1 : cl.uid = u) (h2 : cl'.uid = u) :
    queue_remove u (store_client cl' (queue_add cl r).2) = r := by
  induction r with
  | nil => rfl
  | cons o rest ih =>
    cases o with
    | none =>
      rw [uids_cons_none] at hu
      have hs : store_client cl' rest = rest := store_client_absent cl' rest (h2 ▸ hu)
      simp [queue_add, store_client, queue_remove, h1, h2, hs]
    | some c =>
      rw [uids_cons_some, List.mem_cons, not_or] at hu
      have hc : ¬ c.uid = u := fun e => hu.1 e.symm
      have hc' : ¬ c.uid = cl'.uid := by rw [h2]; exact hc
      simp [queue_add, store_client, queue_remove, hc, hc', ih hu.2]

theorem queue_add_mem (cl : client_t) (r : Registry) (h : none ∈ r) :
    some cl ∈ (queue_add cl r).2 := by
  induction r with
  | nil => simp at h
  | cons o rest ih =>
    cases o with
    | none => simp [queue_add]
    | some c =>
      have h' : none ∈ rest := by simpa using h
      simp only [queue_add, List.mem_cons]
      exact Or.inr (ih h')

theorem mem_uids_queue_add_of_mem (cl : client_t) (r : Registry) (u : Int)
    (h : u ∈ uids r) : u ∈ uids (queue_add cl r).2 := by
  induction r with
  | nil => simp [uids] at h
  | cons o rest ih =>
    cases o with
    | none =>
      rw [uids_cons_none] at h
      simp only [queue_add, uids_cons_some, List.mem_cons]
      exact Or.inr h
    | some c =>
      rw [uids_cons_some, List.mem_cons] at h
      simp only [queue_add, uids_cons_some, List.mem_cons]
      rcases h with h | h
      · exact Or.inl h
      · exact Or.inr (ih h)

theorem mem_uids_queue_remove_of_ne (u v : Int) (r : Registry) (h : u ∈ uids r)
    (hne : v ≠ u) : u ∈ uids (queue_remove v r) := by
  induction r with
  | nil => simp [uids] at h
  | cons o rest ih =>
    cases o with
    | none =>
      rw [uids_cons_none] at h
      simpa [queue_remove, uids_cons_none] using ih h
    | some c =>
      rw [uids_cons_some, List.mem_cons] at h
      by_cases hc : c.uid = v
      · simp only [queue_remove, hc, if_true, uids_cons_none]
        rcases h with h | h
        · exact absurd (hc.symm.trans h.symm) hne
        · exact h
      · simp only [queue_remove, hc, if_false, uids_cons_some, List.mem_cons]
        rcases h with h | h
        · exact Or.inl h
        · exact Or.inr (ih h)

theorem queue_remove_getElem_of_ne (u : Int) (r : Registry) (i : Nat) (c : client_t)
    (h : r[i]? = some (some c)) (hne : c.uid ≠ u) :
    (queue_remove u r)[i]? = some (some c) := by
  induction r generalizing i with
  | nil => simp at h
  | cons o rest ih =>
    cases o with
    | none =>
      cases i with
      | zero => simp at h
      | succ j =>
        simp only [List.getElem?_cons_succ] at h
        simpa [queue_remove] using ih j h
    | some d =>
      cases i with
      | zero =>
        simp only [List.getElem?_cons_zero, Option.some.injEq] at h
        subst h
        simp [queue_remove, hne]
      | succ j =>
        simp only [List.getElem?_cons_succ] at h
        by_cases hd : d.uid = u
        · simpa [queue_remove, hd] using h
        · simpa [queue_remove, hd] using ih j h

theorem main_iteration_uid_le (s s' : Server) (connfd : Int) (cli_addr : Nat)
    (fresh : client_t) (o : Outcome) (h : main_iteration s connfd cli_addr fresh = some (s', o)) :
    s.uid ≤ s'.uid := by
  unfold main_iteration at h
  split at h
  · simp only [Option.some.injEq, Prod.mk.injEq] at h
    rw [← h.1]
  · split at h
    · simp only [Option.some.injEq, Prod.mk.injEq] at h
      rw [← h.1]
      simp only
      omega
    · exact absurd h (by simp)

theorem mem_uids_main_iteration (s s' : Server) (connfd : Int) (cli_addr : Nat)
    (fresh : client_t) (o : Outcome) (h : main_iteration s connfd cli_addr fresh = some (s', o))
    (u : Int) (hu : u ∈ uids s.clients) : u ∈ uids s'.clients := by
  unfold main_iteration at h
  split at h
  · simp only [Option.some.injEq, Prod.mk.injEq] at h
    rw [← h.1]; exact hu
  · split at h
    · simp only [Option.some.injEq, Prod.mk.injEq] at h
      rw [← h.1]
      exact mem_uids_queue_add_of_mem _ _ u hu
    · exact absurd h (by simp)

theorem stepsBefore_reachable (u : Int) (s t : Server) (hs : Reachable s)
    (h : StepsBefore u s t) : Reachable t := by
  induction h with
  | refl => exact hs
  | accept t t' connfd cli_addr fresh o _ hacc ih =>
    exact Reachable.step t t' ih (Step.accept t connfd cli_addr fresh t' o hacc)
  | enter t _ ih => exact Reachable.step t _ ih (Step.enter t)
  | store t cli _ ih => exact Reachable.step t _ ih (Step.store t cli)
  | leave t cli _ _ ih => exact Reachable.step t _ ih (Step.leave t cli)

theorem stepsBefore_uid_le (u : Int) (s t : Server) (h : StepsBefore u s t) :
    s.uid ≤ t.uid := by
  induction h with
  | refl => exact le_refl _
  | accept t t' connfd cli_addr fresh o _ hacc ih =>
    exact le_trans ih (main_iteration_uid_le t t' connfd cli_addr fresh o hacc)
  | enter t _ ih => exact ih
  | store t cli _ ih => exact ih
  | leave t cli _ _ ih => exact ih

theorem stepsBefore_keeps (u : Int) (s t : Server) (h : StepsBefore u s t)
    (hu : u ∈ uids s.clients) : u ∈ uids t.clients := by
  induction h with
  | refl => exact hu
  | accept t t' connfd cli_addr fresh o _ hacc ih =>
    exact mem_uids_main_iteration t t' connfd cli_addr fresh o hacc u ih
  | enter t _ ih => exact ih
  | store t cli _ ih =>
    simp only [uids_store_client]
    exact ih
  | leave t cli _ hne ih =>
    exact mem_uids_queue_remove_of_ne u cli.uid t.clients ih hne

theorem steps_never_again (u : Int) (s t : Server) (h : Steps s t)
    (hu : u ∉ uids s.clients) (hlt : u < s.uid) : u ∉ uids t.clients ∧ u < t.uid := by
  induction h with
  | refl => exact ⟨hu, hlt⟩
  | tail t t' _ hstep ih =>
    cases hstep with
    | accept connfd cli_addr fresh _ o hacc =>
      unfold main_iteration at hacc
      split at hacc
      · simp only [Option.some.injEq, Prod.mk.injEq] at hacc
        rw [← hacc.1]; exact ih
      · split at hacc
        · simp only [Option.some.injEq, Prod.mk.injEq] at hacc
          rw [← hacc.1]
          refine ⟨fun hmem => ?_, ?_⟩
          · rcases mem_uids_queue_add _ _ u hmem with h | h
            · simp only at h
              omega
            · exact ih.1 h
          · simp only
            omega
        · exact absurd hacc (by simp)
    | enter => exact ih
    | store cli =>
      simp only [uids_store_client]
      exact ih
    | leave cli =>
      exact ⟨fun hmem => ih.1 ((uids_queue_remove_sublist cli.uid t.clients).subset hmem), ih.2⟩

theorem handle_client_of_leave (t : Server) (cli : client_t) (rn ra rp : Recv Nat)
    (msgs : List (Recv Int)) (h : (handshake cli rn ra rp).2 = true) :
    (handle_client t cli rn ra rp msgs).leave_flag = true ∧
    (handle_client t cli rn ra rp msgs).calls = [] ∧
    (handle_client t cli rn ra rp msgs).final =
      some (teardown (handle_client t cli rn ra rp msgs).registering
        (handshake cli rn ra rp).1) := by
  refine ⟨?_, ?_, ?_⟩
  · simp only [handle_client, h]
  · simp only [handle_client, h, relay_loop_leave]
  · simp only [handle_client, h, relay_loop_leave, if_true]

theorem handshake_of_fail (cli : client_t) (rn ra rp : Recv Nat)
    (hfail : rn.rc ≤ 0 ∨ strlen rn.buf < 2 ∨ 31 ≤ strlen rn.buf ∨ ra.rc ≤ 0) :
    (handshake cli rn ra rp).2 = true := by
  cases hb : (handshake cli rn ra rp).2
  · have := (handshake_leave_flag cli rn ra rp).1 hb
    rcases hfail with h | h | h | h <;> omega
  · rfl

/-- C5 (counterexample): "alice" is registered and a new connection is
accepted on descriptor 5 into memory that still spells "room1" in its alias
field. The accept loop puts the record into slot 1 at once. The handshake of
that connection then fails (the name read returns 0), yet the registry holds
the record while the handshake runs, and a broadcast from "alice" made in
that state writes her key field and the payload to descriptor 5. -/
theorem failed_handshake_session_registered :
    main_iteration ⟨registry_of [alice], 1, 11⟩ 5 0 stale =
      some (⟨registry_of [alice, half_open], 1, 12⟩, Outcome.spawned half_open) ∧
    (handshake half_open recv_closed recv_closed recv_closed).2 = true ∧
    some half_open ∈ registry_of [alice, half_open] ∧
    (handle_client ⟨registry_of [alice, half_open], 1, 12⟩ half_open recv_closed recv_closed
        recv_closed []).registering = ⟨registry_of [alice, half_open], 2, 12⟩ ∧
    (broadcast_msg (fun _ => 32) (registry_of [alice, half_open]) payload_he alice.uid
        (alias_memory alice) alice.public_key_str).map
        (fun t => t.map (fun e => (e.fd, e.buf))) =
      some [(5, WBuf.bytes alice.public_key_str), (5, WBuf.ints payload_he)] := by
  refine ⟨by decide, by decide, by decide, by decide, ?_⟩
  obtain ⟨trace, ht, hmap, _⟩ := broadcast_loop_ok (fun _ => 32) payload_he alice.uid
    (alias_memory alice) alice.public_key_str (fun _ => by show (0 : Int) ≤ 32; decide)
    (by decide) payload_he_length (by decide) (registry_of [alice, half_open])
    (fun c hc _ => by
      have hmem := mem_registry_of c _ hc
      simp only [List.mem_cons, List.mem_singleton, List.not_mem_nil, or_false] at hmem
      rcases hmem with rfl | rfl <;> decide) 0
  rw [broadcast_msg, ht, Option.map_some', hmap]
  rfl

/-- C5 (amended): in a reachable state, a connection that the accept loop
takes on and whose handshake fails as the code tests it (the name read
returns at most 0 bytes, the name has length outside [2,31), or the alias
read returns at most 0 bytes) is given the next uid and, if a slot is free,
is in the registry from the accept on. Its handler, from whatever state it
runs, leaves the relay loop at once, requests no broadcast and goes to its
teardown. Whatever the accept loop and the other handlers do before that
teardown, the registry still holds the session; the teardown leaves every
other session in its slot; and in no state after the teardown does the
registry hold a session with that uid. -/
theorem failed_handshake_session_removed (s : Server) (h : Reachable s) (connfd : Int)
    (cli_addr : Nat) (fresh : client_t) (rn ra rp : Recv Nat) (msgs : List (Recv Int))
    (hcap : (s.cli_count + 1) % UINT_MOD ≠ MAX_CLIENTS) (huid : s.uid < INT_MAX)
    (hfail : rn.rc ≤ 0 ∨ strlen rn.buf < 2 ∨ 31 ≤ strlen rn.buf ∨ ra.rc ≤ 0) :
    ∃ s1 cli, main_iteration s connfd cli_addr fresh = some (s1, Outcome.spawned cli) ∧
      cli.uid = s.uid ∧
      (none ∈ s.clients → some cli ∈ s1.clients) ∧
      (∀ t, (handle_client t cli rn ra rp msgs).leave_flag = true ∧
        (handle_client t cli rn ra rp msgs).calls = [] ∧
        (handle_client t cli rn ra rp msgs).final =
          some (teardown (handle_client t cli rn ra rp msgs).registering
            (handshake cli rn ra rp).1)) ∧
      ∀ t, StepsBefore s.uid s1 t →
        (none ∈ s.clients → s.uid ∈ uids t.clients) ∧
        (∀ (i : Nat) (c : client_t), t.clients[i]? = some (some c) → c.uid ≠ s.uid →
          (teardown t (handshake cli rn ra rp).1).clients[i]? = some (some c)) ∧
        ∀ t', Steps (teardown t (handshake cli rn ra rp).1) t' → s.uid ∉ uids t'.clients := by
  have hmain : main_iteration s connfd cli_addr fresh =
      some ({ s with
          clients := (queue_add { fresh with address := cli_addr, sockfd := connfd, uid := s.uid }
            s.clients).2
          uid := s.uid + 1 },
        Outcome.spawned { fresh with address := cli_addr, sockfd := connfd, uid := s.uid }) := by
    unfold main_iteration
    rw [if_neg hcap, if_pos (by omega)]
  have hlf := handshake_of_fail { fresh with address := cli_addr, sockfd := connfd, uid := s.uid }
    rn ra rp hfail
  have hhu := handshake_uid { fresh with address := cli_addr, sockfd := connfd, uid := s.uid }
    rn ra rp
  have hs1 := Reachable.step s _ h (Step.accept s connfd cli_addr fresh _ _ hmain)
  refine ⟨_, _, hmain, rfl, fun hfree => queue_add_mem _ _ hfree,
    fun t => handle_client_of_leave t _ rn ra rp msgs hlf, ?_⟩
  intro t ht
  have hrt := stepsBefore_reachable s.uid _ t hs1 ht
  have hle := stepsBefore_uid_le s.uid _ t ht
  simp only at hle
  refine ⟨fun hfree => ?_, fun i c hi hne => ?_, fun t' ht' => ?_⟩
  · refine stepsBefore_keeps s.uid _ t ht ?_
    exact (mem_uids_iff _ _).2 ⟨_, queue_add_mem _ _ hfree, rfl⟩
  · simp only [teardown, hhu]
    exact queue_remove_getElem_of_ne s.uid t.clients i c hi hne
  · refine (steps_never_again s.uid _ t' ht' ?_ ?_).1
    · simp only [teardown, hhu]
      exact not_mem_uids_queue_remove s.uid t.clients (reachable_invariant t hrt).1
    · simp only [teardown]
      omega

/-- Witness for C5: the first connection after start-up closes before sending
a name; its handler requests no broadcast, the registry holds uid 10 after
the accept and no longer after the teardown. -/
theorem failed_handshake_session_removed_witness :
    ∃ s1 cli, main_iteration server_init 4 0 blank = some (s1, Outcome.spawned cli) ∧
      (handle_client s1 cli recv_closed recv_closed recv_closed []).calls = [] ∧
      10 ∈ uids s1.clients ∧
      10 ∉ uids (teardown s1 (handshake cli recv_closed recv_closed recv_closed).1).clients := by
  obtain ⟨s1, cli, h1, _, _, h4, h5⟩ :=
    failed_handshake_session_removed server_init Reachable.init 4 0 blank recv_closed
      recv_closed recv_closed [] (by decide) (by decide) (Or.inl (by decide))
  obtain ⟨h6, _, h8⟩ := h5 s1 (StepsBefore.refl s1)
  exact ⟨s1, cli, h1, (h4 s1).2.1, h6 (by decide), h8 _ (Steps.refl _)⟩

/-- C6 (the code at the failing input): the name "alice" and the alias "room1"
arrive, then the peer closes, so the public-key read and the next read return
0. `leave_flag` is still 0 after the handshake: the handler enters the relay
loop and only its first message read ends it. -/
theorem handshake_ignores_key_read :
    (handshake { blank with sockfd := 4, uid := 10 } ⟨32, alice.name⟩ ⟨32, room1⟩
        recv_closed).2 = false ∧
    (handle_client ⟨registry_of [{ blank with sockfd := 4, uid := 10 }], 0, 11⟩
        { blank with sockfd := 4, uid := 10 } ⟨32, alice.name⟩ ⟨32, room1⟩ recv_closed
        [⟨0, []⟩]).leave_flag = false := by
  refine ⟨by decide, by decide⟩

/-- C10 (the code at the failing input): 127 handlers are running and slot 127
is free, fewer than `MAX_CLIENTS = 128` clients; the accept loop rejects the
next connection and leaves the registry as it is. -/
theorem main_iteration_rejects_below_capacity :
    almost_full.cli_count = 127 ∧ almost_full.cli_count < MAX_CLIENTS ∧
    none ∈ almost_full.clients ∧
    main_iteration almost_full 131 0 blank = some (almost_full, Outcome.rejected 131) := by
  refine ⟨rfl, by decide, by simp [almost_full], ?_⟩
  simp [main_iteration, almost_full, UINT_MOD, MAX_CLIENTS]

/-! ### Message codec -/

theorem encrypt_loop_eq (k : Int) (hk1 : 1 ≤ k) (hk2 : k ≤ 22) (n : Nat) (message : List Int)
    (hch : ∀ ch ∈ message, -128 ≤ ch ∧ ch ≤ 255) (hn : n ≤ message.length) :
    encrypt_loop k n message = some ((message.take n).map (fun ch => ch * k)) := by
  induction n generalizing message with
  | zero => simp [encrypt_loop]
  | succ n ih =>
    cases message with
    | nil => simp at hn
    | cons ch rest =>
      have hc := hch ch (List.mem_cons_self _ _)
      have hmul : int_mul ch k = some (ch * k) := by
        apply int_mul_some
        rw [abs_le]
        have h1 : ch * k ≤ 255 * 22 := by nlinarith [hc.1, hc.2]
        have h2 : -(128 * 22) ≤ ch * k := by nlinarith [hc.1, hc.2]
        constructor
        · have : -INT_MAX ≤ -(128 * 22) := by decide
          omega
        · have : (255 : Int) * 22 ≤ INT_MAX := by decide
          omega
      have hrest := ih rest (fun c hcm => hch c (List.mem_cons_of_mem _ hcm))
        (by simpa using hn)
      simp [encrypt_loop, hmul, hrest]

theorem shared_key_range (n : Nat) :
    1 ≤ Int.tmod ((5 : Int) ^ n) 23 ∧ Int.tmod ((5 : Int) ^ n) 23 ≤ 22 := by
  have hpos : (0 : Int) ≤ 5 ^ n := pow_nonneg (by decide) n
  rw [Int.tmod_eq_emod hpos (by decide)]
  have h0 : 0 ≤ (5 : Int) ^ n % 23 := Int.emod_nonneg _ (by decide)
  have h1 : (5 : Int) ^ n % 23 < 23 := Int.emod_lt_of_pos _ (by decide)
  have hne : (5 : Int) ^ n % 23 ≠ 0 := by
    intro h
    have hdvd : (23 : Int) ∣ 5 ^ n := Int.dvd_of_emod_eq_zero h
    have hdvd' : (23 : Nat) ∣ 5 ^ n := by exact_mod_cast hdvd
    have hp : Nat.Prime 23 := by norm_num
    have := hp.dvd_of_dvd_pow hdvd'
    omega
  omega

/-- C11: for private exponents `a` and `b` in [0,20), `G = 5` and `P = 23`,
the shared key `compute_key(compute_key(G, a, P), b, P)` is defined in `int`
arithmetic and lies in [1,22]; and for every message of `char` values and
every position `i` below `message_len`, the element `i` of
`encrypt_msg(message, message_len, k)` is zero if and only if `message[i]` is
NUL, so a payload of non-NUL characters holds no zero. -/
theorem shared_key_encrypts_without_sentinel (a b : Int) (ha0 : 0 ≤ a) (ha : a < 20)
    (hb0 : 0 ≤ b) (hb : b < 20) :
    ∃ k, (compute_key G a P).bind (fun x => compute_key x b P) = some k ∧ 1 ≤ k ∧ k ≤ 22 ∧
      ∀ (message : List Int) (message_len : Int),
        (∀ ch ∈ message, -128 ≤ ch ∧ ch ≤ 255) → message_len.toNat ≤ message.length →
        ∃ enc, encrypt_msg message message_len k = some enc ∧
          enc.length = message_len.toNat ∧
          (∀ (i : Nat) (ch : Int), i < message_len.toNat → message[i]? = some ch →
            ∃ e, enc[i]? = some e ∧ (e = 0 ↔ ch = 0)) ∧
          ((∀ ch ∈ message.take message_len.toNat, ch ≠ 0) → (0 : Int) ∉ enc) := by
  have hkey : (compute_key G a P).bind (fun x => compute_key x b P) =
      some (Int.tmod ((5 : Int) ^ (a.toNat * b.toNat)) 23) :=
    bpow_bpow 5 a b 23 ha0 hb0 (by decide) (by decide)
  obtain ⟨hk1, hk2⟩ := shared_key_range (a.toNat * b.toNat)
  refine ⟨_, hkey, hk1, hk2, ?_⟩
  intro message message_len hch hlen
  have hk0 : Int.tmod ((5 : Int) ^ (a.toNat * b.toNat)) 23 ≠ 0 := by omega
  refine ⟨_, encrypt_loop_eq _ hk1 hk2 _ message hch hlen, ?_, ?_, ?_⟩
  · simp [List.length_take, hlen]
  · intro i ch hi hm
    refine ⟨ch * Int.tmod ((5 : Int) ^ (a.toNat * b.toNat)) 23, ?_, ?_⟩
    · simp [List.getElem?_map, List.getElem?_take, hi, hm]
    · simp [mul_eq_zero, hk0]
  · intro hnz hmem
    rw [List.mem_map] at hmem
    obtain ⟨ch, hch', he⟩ := hmem
    rcases mul_eq_zero.mp he with h | h
    · exact hnz ch hch' h
    · exact hk0 h

/-- Witness for C11: private exponents 6 and 15 give the key 2, and "He"
is encrypted to two non-zero elements. -/
theorem shared_key_encrypts_without_sentinel_witness :
    ∃ k enc, (compute_key G 6 P).bind (fun x => compute_key x 15 P) = some k ∧
      1 ≤ k ∧ k ≤ 22 ∧ encrypt_msg [72, 101] 2 k = some enc ∧ enc.length = 2 ∧
      (0 : Int) ∉ enc := by
  obtain ⟨k, hk, h1, h2, henc⟩ :=
    shared_key_encrypts_without_sentinel 6 15 (by decide) (by decide) (by decide) (by decide)
  obtain ⟨enc, he, hl, _, hz⟩ := henc [72, 101] 2 (by decide) (by decide)
  exact ⟨k, enc, hk, h1, h2, he, hl, hz (by decide)⟩

end NetworksProject
